import Mathlib

/-
Verification of the protocol-adaptation layer in src-tauri/src/db.rs:
placeholder rewriting, parameter encoding (json_to_sql_param), row decoding
(column_to_json) and the execute_sql / query_sql orchestration.

Strings are modelled as lists of characters; the Rust loop
  for i in 1..=params.len() { processed_sql = processed_sql.replacen('?', &format!("@p{}", i), 1); }
is modelled by `rewriteFrom` below.
-/

namespace Db

/-- Number of placeholder characters in a SQL text. -/
def countQ : List Char → Nat
  | [] => 0
  | c :: r => (if c = '?' then 1 else 0) + countQ r

/-- Decimal digit character, as produced by Rust integer formatting. -/
def digitChar (d : Nat) : Char := Char.ofNat (48 + d)

/-- Decimal rendering of a natural number, as Rust `format!("{}", i)` emits it. -/
def natDecimal (n : Nat) : List Char :=
  if _h : n < 10 then [digitChar n]
  else natDecimal (n / 10) ++ [digitChar (n % 10)]
decreasing_by exact Nat.div_lt_self (by omega) (by omega)

/-- The positional token `format!("@p{}", i)`. -/
def pTok (i : Nat) : List Char := '@' :: 'p' :: natDecimal i

/-- Rust `str::replacen(pat = '?', to = tok, count = 1)`: replace the first
occurrence of the placeholder character, if any. -/
def replacen : List Char → List Char → List Char
  | [], _ => []
  | c :: r, tok => if c = '?' then tok ++ r else c :: replacen r tok

/-- The rewriting loop of execute_sql / query_sql, starting at token index `i`
and running for the given number of iterations. -/
def rewriteFrom : List Char → Nat → Nat → List Char
  | s, _, 0 => s
  | s, i, k + 1 => rewriteFrom (replacen s (pTok i)) (i + 1) k

/-- The full rewriting step: token indices 1 .. n (n = params.len()). -/
def rewrite (s : List Char) (n : Nat) : List Char := rewriteFrom s 1 n

/-- Segments of a SQL text between its placeholder characters. -/
def splitOnQ : List Char → List (List Char)
  | [] => [[]]
  | c :: r =>
    if c = '?' then [] :: splitOnQ r
    else
      match splitOnQ r with
      | [] => [[c]]
      | h :: t => (c :: h) :: t

/-- Rejoin segments with the placeholder character: left inverse of `splitOnQ`. -/
def unsplit : List (List Char) → List Char
  | [] => []
  | [a] => a
  | a :: b :: r => a ++ '?' :: unsplit (b :: r)

/-- Normal form of the rewritten text: the first `n` placeholders replaced by
tokens `@p i`, `@p (i+1)`, ..., any remaining placeholders left intact. -/
def joinUpTo : Nat → Nat → List (List Char) → List Char
  | _, _, [] => []
  | _, 0, a :: t => unsplit (a :: t)
  | _, _ + 1, [a] => a
  | i, n + 1, a :: b :: t => a ++ pTok i ++ joinUpTo (i + 1) n (b :: t)

/-- Full interleaving: every gap between segments carries its positional token,
numbered consecutively from `i`. -/
def specJoin : Nat → List (List Char) → List Char
  | _, [] => []
  | _, [a] => a
  | i, a :: b :: t => a ++ pTok i ++ specJoin (i + 1) (b :: t)

theorem countQ_append (a b : List Char) : countQ (a ++ b) = countQ a + countQ b := by
  induction a with
  | nil => simp [countQ]
  | cons c r ih => simp [countQ, ih]; omega

theorem digitChar_ne_q (d : Nat) (h : d < 10) : digitChar d ≠ '?' := by
  interval_cases d <;> decide

theorem countQ_natDecimal (n : Nat) : countQ (natDecimal n) = 0 := by
  induction n using Nat.strong_induction_on with
  | _ n ih =>
    rw [natDecimal]
    split
    · simp [countQ, digitChar_ne_q n (by omega)]
    · rw [countQ_append, ih (n / 10) (Nat.div_lt_self (by omega) (by omega))]
      simp [countQ, digitChar_ne_q (n % 10) (Nat.mod_lt n (by omega))]

theorem countQ_pTok (i : Nat) : countQ (pTok i) = 0 := by
  simp [pTok, countQ, countQ_natDecimal]

theorem replacen_noQ (s tok : List Char) (h : countQ s = 0) : replacen s tok = s := by
  induction s with
  | nil => rfl
  | cons c r ih =>
    simp only [countQ] at h
    have hc : ¬ c = '?' := by intro hc; simp [hc] at h
    simp only [replacen, if_neg hc]
    rw [ih (by simpa [hc] using h)]

theorem replacen_split (a b tok : List Char) (h : countQ a = 0) :
    replacen (a ++ '?' :: b) tok = a ++ tok ++ b := by
  induction a with
  | nil => simp [replacen]
  | cons c r ih =>
    simp only [countQ] at h
    have hc : ¬ c = '?' := by intro hc; simp [hc] at h
    simp only [List.cons_append, replacen, if_neg hc, List.append_eq]
    rw [ih (by simpa [hc] using h)]

theorem splitOnQ_ne_nil (s : List Char) : splitOnQ s ≠ [] := by
  cases s with
  | nil => simp [splitOnQ]
  | cons c r =>
    simp only [splitOnQ]
    split
    · simp
    · split <;> simp

theorem splitOnQ_noQ (s : List Char) (h : countQ s = 0) : splitOnQ s = [s] := by
  induction s with
  | nil => rfl
  | cons c r ih =>
    simp only [countQ] at h
    have hc : ¬ c = '?' := by intro hc; simp [hc] at h
    have hr := ih (by simpa [hc] using h)
    simp [splitOnQ, if_neg hc, hr]

theorem splitOnQ_decomp (s : List Char) (m : Nat) (h : countQ s = m + 1) :
    ∃ a b, s = a ++ '?' :: b ∧ countQ a = 0 ∧ countQ b = m ∧
      splitOnQ s = a :: splitOnQ b := by
  induction s generalizing m with
  | nil => simp [countQ] at h
  | cons c r ih =>
    by_cases hc : c = '?'
    · subst hc
      refine ⟨[], r, by simp, rfl, ?_, by simp [splitOnQ]⟩
      simp [countQ] at h
      omega
    · simp only [countQ, if_neg hc, Nat.zero_add] at h
      obtain ⟨a, b, hs, ha, hb, hsplit⟩ := ih m h
      refine ⟨c :: a, b, by simp [hs], by simp [countQ, hc, ha], hb, ?_⟩
      simp only [splitOnQ, if_neg hc, hsplit]

theorem splitOnQ_prepend (p s : List Char) (h : List Char) (t : List (List Char))
    (hp : countQ p = 0) (hs : splitOnQ s = h :: t) :
    splitOnQ (p ++ s) = (p ++ h) :: t := by
  induction p with
  | nil => simpa using hs
  | cons c r ih =>
    simp only [countQ] at hp
    have hc : ¬ c = '?' := by intro hc; simp [hc] at hp
    have hr := ih (by simpa [hc] using hp)
    simp only [List.cons_append, splitOnQ, if_neg hc, List.append_eq, hr]

theorem joinUpTo_prepend (i n : Nat) (p h : List Char) (t : List (List Char)) :
    joinUpTo i n ((p ++ h) :: t) = p ++ joinUpTo i n (h :: t) := by
  cases n with
  | zero =>
    cases t with
    | nil => simp [joinUpTo, unsplit]
    | cons x t' => simp [joinUpTo, unsplit]
  | succ n =>
    cases t with
    | nil => simp [joinUpTo]
    | cons x t' => simp [joinUpTo]

theorem joinUpTo_single (i n : Nat) (a : List Char) : joinUpTo i n [a] = a := by
  cases n <;> simp [joinUpTo, unsplit]

theorem unsplit_splitOnQ (s : List Char) : unsplit (splitOnQ s) = s := by
  induction s with
  | nil => rfl
  | cons c r ih =>
    obtain ⟨h, t, hr⟩ : ∃ h t, splitOnQ r = h :: t := by
      cases hs : splitOnQ r with
      | nil => exact absurd hs (splitOnQ_ne_nil r)
      | cons h t => exact ⟨h, t, rfl⟩
    have ihr : unsplit (h :: t) = r := by rw [← hr]; exact ih
    by_cases hc : c = '?'
    · subst hc
      simp only [splitOnQ, if_pos rfl, hr, unsplit, List.nil_append]
      rw [ihr]
    · simp only [splitOnQ, if_neg hc, hr]
      cases t with
      | nil =>
        simp only [unsplit] at ihr ⊢
        rw [ihr]
      | cons x t' =>
        simp only [unsplit, List.cons_append] at ihr ⊢
        rw [ihr]

/-- Master simulation lemma: the rewriting loop equals the normal form built
from the segments between placeholders. -/
theorem rewriteFrom_eq_joinUpTo (n : Nat) :
    ∀ (s : List Char) (i : Nat), rewriteFrom s i n = joinUpTo i n (splitOnQ s) := by
  induction n with
  | zero =>
    intro s i
    obtain ⟨h, t, hr⟩ : ∃ h t, splitOnQ s = h :: t := by
      cases hs : splitOnQ s with
      | nil => exact absurd hs (splitOnQ_ne_nil s)
      | cons h t => exact ⟨h, t, rfl⟩
    simp only [rewriteFrom, hr, joinUpTo]
    rw [← hr, unsplit_splitOnQ]
  | succ n ih =>
    intro s i
    cases hq : countQ s with
    | zero =>
      rw [splitOnQ_noQ s hq]
      simp only [rewriteFrom, replacen_noQ s (pTok i) hq, joinUpTo_single]
      rw [ih s (i + 1), splitOnQ_noQ s hq, joinUpTo_single]
    | succ m =>
      obtain ⟨a, b, hs, ha, hb, hsplit⟩ := splitOnQ_decomp s m hq
      obtain ⟨h, t, hbr⟩ : ∃ h t, splitOnQ b = h :: t := by
        cases hs' : splitOnQ b with
        | nil => exact absurd hs' (splitOnQ_ne_nil b)
        | cons h t => exact ⟨h, t, rfl⟩
      have hrepl : replacen s (pTok i) = (a ++ pTok i) ++ b := by
        rw [hs, replacen_split a b (pTok i) ha]
      have hpre : countQ (a ++ pTok i) = 0 := by
        rw [countQ_append, ha, countQ_pTok]
      simp only [rewriteFrom, hrepl]
      rw [ih ((a ++ pTok i) ++ b) (i + 1),
        splitOnQ_prepend (a ++ pTok i) b h t hpre hbr,
        joinUpTo_prepend, hsplit, hbr]
      simp [joinUpTo, List.append_assoc]

theorem rewrite_eq_joinUpTo (s : List Char) (n : Nat) :
    rewrite s n = joinUpTo 1 n (splitOnQ s) :=
  rewriteFrom_eq_joinUpTo n s 1

theorem noQ_segments (s : List Char) : ∀ x ∈ splitOnQ s, countQ x = 0 := by
  induction s with
  | nil =>
    intro x hx
    simp [splitOnQ] at hx
    simp [hx, countQ]
  | cons c r ih =>
    obtain ⟨h, t, hr⟩ : ∃ h t, splitOnQ r = h :: t := by
      cases hs : splitOnQ r with
      | nil => exact absurd hs (splitOnQ_ne_nil r)
      | cons h t => exact ⟨h, t, rfl⟩
    intro x hx
    by_cases hc : c = '?'
    · subst hc
      simp only [splitOnQ, if_pos rfl] at hx
      rcases List.mem_cons.mp hx with hx | hx
      · simp [hx, countQ]
      · exact ih x hx
    · simp only [splitOnQ, if_neg hc, hr] at hx
      rcases List.mem_cons.mp hx with hx | hx
      · subst hx
        have hh : countQ h = 0 := ih h (by rw [hr]; exact List.mem_cons_self h t)
        simp [countQ, hc, hh]
      · exact ih x (by rw [hr]; exact List.mem_cons_of_mem h hx)

theorem splitOnQ_length (s : List Char) : (splitOnQ s).length = countQ s + 1 := by
  induction s with
  | nil => rfl
  | cons c r ih =>
    by_cases hc : c = '?'
    · subst hc
      simp [splitOnQ, countQ, ih]
      omega
    · obtain ⟨h, t, hr⟩ : ∃ h t, splitOnQ r = h :: t := by
        cases hs : splitOnQ r with
        | nil => exact absurd hs (splitOnQ_ne_nil r)
        | cons h t => exact ⟨h, t, rfl⟩
      simp only [splitOnQ, if_neg hc, hr, List.length_cons, countQ]
      rw [hr] at ih
      simp only [List.length_cons] at ih
      simp [hc, ih]

theorem countQ_unsplit (segs : List (List Char)) (h : ∀ x ∈ segs, countQ x = 0) :
    countQ (unsplit segs) = segs.length - 1 := by
  induction segs with
  | nil => rfl
  | cons a t ih =>
    cases t with
    | nil =>
      simp only [unsplit, List.length_cons]
      exact h a (List.mem_cons_self a [])
    | cons b t' =>
      have ha : countQ a = 0 := h a (List.mem_cons_self a (b :: t'))
      have ht : ∀ x ∈ b :: t', countQ x = 0 := fun x hx => h x (List.mem_cons_of_mem a hx)
      simp only [unsplit, countQ_append, ha, countQ, List.length_cons]
      rw [ih ht]
      simp
      omega

theorem countQ_joinUpTo (segs : List (List Char)) :
    ∀ (i n : Nat), (∀ x ∈ segs, countQ x = 0) →
      countQ (joinUpTo i n segs) = (segs.length - 1) - n := by
  induction segs with
  | nil => intro i n _; simp [joinUpTo, countQ]
  | cons a t ih =>
    intro i n h
    cases n with
    | zero =>
      simp only [joinUpTo]
      rw [countQ_unsplit (a :: t) h]
      simp
    | succ n =>
      cases t with
      | nil =>
        simp only [joinUpTo, List.length_cons]
        rw [h a (List.mem_cons_self a [])]
        simp
      | cons b t' =>
        have ha : countQ a = 0 := h a (List.mem_cons_self a (b :: t'))
        have ht : ∀ x ∈ b :: t', countQ x = 0 := fun x hx => h x (List.mem_cons_of_mem a hx)
        simp only [joinUpTo, countQ_append, ha, countQ_pTok, List.length_cons]
        rw [ih (i + 1) n ht]
        simp only [List.length_cons]
        omega

theorem joinUpTo_full (segs : List (List Char)) :
    ∀ (i n : Nat), segs.length = n + 1 → joinUpTo i n segs = specJoin i segs := by
  induction segs with
  | nil => intro i n h; simp at h
  | cons a t ih =>
    intro i n h
    cases t with
    | nil =>
      have : n = 0 := by simp at h; omega
      subst this
      simp [joinUpTo, specJoin, unsplit]
    | cons b t' =>
      cases n with
      | zero => simp at h
      | succ n =>
        simp only [joinUpTo, specJoin]
        rw [ih (i + 1) n (by simp at h ⊢; omega)]

theorem countQ_rewrite (s : List Char) (n : Nat) : countQ (rewrite s n) = countQ s - n := by
  rw [rewrite_eq_joinUpTo]
  rw [countQ_joinUpTo (splitOnQ s) 1 n (noQ_segments s)]
  rw [splitOnQ_length]
  omega

/-
JSON value model (serde_json::Value).

`JsonNumber` models serde_json's `Number` (without the arbitrary_precision
feature): an unsigned 64-bit integer, a negative signed 64-bit integer, or a
finite double.  The float payload is modelled as a rational number: SQL
Server's float domain excludes NaN and infinities, and none of the verified
properties depend on binary rounding.
-/

inductive JsonNumber where
  | posInt : Nat → JsonNumber
  | negInt : Int → JsonNumber
  | float : Rat → JsonNumber
deriving DecidableEq

/-- serde_json `Number::as_i64`: succeeds only on integer-carried numbers that
fit the signed 64-bit range. -/
def as_i64 : JsonNumber → Option Int
  | .posInt n => if n ≤ 9223372036854775807 then some (n : Int) else none
  | .negInt i => some i
  | .float _ => none

/-- serde_json `Number::as_f64`: always succeeds (integer payloads are cast to
double; the cast's rounding is immaterial to the claims and modelled exactly). -/
def as_f64 : JsonNumber → Option Rat
  | .posInt n => some (n : Rat)
  | .negInt i => some (i : Rat)
  | .float q => some q

/-- The mathematical value carried by a JSON number. -/
def numVal : JsonNumber → Rat
  | .posInt n => (n : Rat)
  | .negInt i => (i : Rat)
  | .float q => q

/-- serde_json `Value`. Objects are the default `serde_json::Map`, a B-tree map
ordered by key, modelled as a key-sorted association list. -/
inductive Value where
  | null : Value
  | bool : Bool → Value
  | num : JsonNumber → Value
  | str : String → Value
  | arr : List Value → Value
  | obj : List (String × Value) → Value

/-- serde_json `From<i64> for Number`: non-negative values are carried as
unsigned, negative ones as signed. -/
def intToNumber (i : Int) : JsonNumber :=
  if 0 ≤ i then .posInt i.toNat else .negInt i

/--
Bound parameter model: the payload shapes this code ever boxes as
`Box<dyn ToSql + Sync>` in json_to_sql_param (String, i64, f64, bool,
Option::<String>::None).
-/
inductive SqlParam where
  | str : String → SqlParam
  | i64 : Int → SqlParam
  | f64 : Rat → SqlParam
  | bool : Bool → SqlParam
  | nullStr : SqlParam
deriving DecidableEq

/-- The number branch of json_to_sql_param: the if-let chain over
`n.as_i64()` and `n.as_f64()` with the `0i64` fallback. -/
def number_to_param (oi : Option Int) (of : Option Rat) : SqlParam :=
  match oi with
  | some i => .i64 i
  | none =>
    match of with
    | some f => .f64 f
    | none => .i64 0

/-- src-tauri/src/db.rs, json_to_sql_param (lines 43-58). -/
def json_to_sql_param : Value → SqlParam
  | .str s => .str s
  | .num n => number_to_param (as_i64 n) (as_f64 n)
  | .bool b => .bool b
  | _ => .nullStr

/-- Discriminates the exact-integer parameter shape. -/
def isIntParam : SqlParam → Bool
  | .i64 _ => true
  | _ => false

/-- Lower-case hexadecimal digit, as the hex crate emits. -/
def hexDigit (d : Nat) : Char :=
  if d < 10 then Char.ofNat (48 + d) else Char.ofNat (87 + d)

/-- `hex::encode`: each byte becomes two lower-case hexadecimal characters. -/
def hexEncode : List Nat → List Char
  | [] => []
  | b :: r => hexDigit (b / 16) :: hexDigit (b % 16) :: hexEncode r

/-- A GUID as its 16 bytes in canonical (string) order. -/
structure Guid where
  bytes : List Nat
deriving DecidableEq

/-- `Uuid::to_string`: hyphenated lower-case hexadecimal, groups 8-4-4-4-12. -/
def guidString (g : Guid) : String :=
  String.mk (hexEncode (g.bytes.take 4) ++ '-' ::
    (hexEncode ((g.bytes.drop 4).take 2) ++ '-' ::
      (hexEncode ((g.bytes.drop 6).take 2) ++ '-' ::
        (hexEncode ((g.bytes.drop 8).take 2) ++ '-' ::
          hexEncode ((g.bytes.drop 10).take 6)))))

/--
tiberius `ColumnData`: one cell of a result row.  Payloads of the kinds that
column_to_json never inspects (numeric, xml, and the date/time family) are
modelled by the integer fields tiberius carries for them.  Float payloads are
rationals (SQL Server's float domain has no NaN or infinities).
-/
inductive ColumnData where
  | binary : Option (List Nat) → ColumnData
  | bit : Option Bool → ColumnData
  | u8 : Option Nat → ColumnData
  | i16 : Option Int → ColumnData
  | i32 : Option Int → ColumnData
  | i64 : Option Int → ColumnData
  | f32 : Option Rat → ColumnData
  | f64 : Option Rat → ColumnData
  | string : Option String → ColumnData
  | guid : Option Guid → ColumnData
  | numeric : Option (Int × Nat) → ColumnData
  | xml : Option String → ColumnData
  | dateTime : Option (Int × Nat) → ColumnData
  | smallDateTime : Option (Nat × Nat) → ColumnData
  | time : Option (Nat × Nat) → ColumnData
  | date : Option Nat → ColumnData
  | dateTime2 : Option (Nat × Nat × Nat) → ColumnData
  | dateTimeOffset : Option (Nat × Nat × Nat × Int) → ColumnData
deriving DecidableEq

/-- src-tauri/src/db.rs, column_to_json (lines 27-41).  `json!(f)` on a finite
float builds a float-carried number; integer cells go through serde_json's
integer conversions. -/
def column_to_json : ColumnData → Value
  | .binary (some b) => .str (String.mk (hexEncode b))
  | .bit (some b) => .bool b
  | .u8 (some i) => .num (.posInt i)
  | .i16 (some i) => .num (intToNumber i)
  | .i32 (some i) => .num (intToNumber i)
  | .i64 (some i) => .num (intToNumber i)
  | .f32 (some f) => .num (.float f)
  | .f64 (some f) => .num (.float f)
  | .string (some s) => .str s
  | .guid (some g) => .str (guidString g)
  | _ => .null

/--
serde_json's default `Map<String, Value>` is a BTreeMap: a key-sorted map.
`mapInsert` models `Map::insert`: it keeps keys strictly sorted and replaces
the value when the key is already present.
-/
def mapInsert : List (String × Value) → String → Value → List (String × Value)
  | [], k, v => [(k, v)]
  | (a, b) :: t, k, v =>
    if k < a then (k, v) :: (a, b) :: t
    else if k = a then (k, v) :: t
    else (a, b) :: mapInsert t k v

/-- Map lookup on the association-list model. -/
def mapLookup : List (String × Value) → String → Option Value
  | [], _ => none
  | (a, b) :: t, k => if k = a then some b else mapLookup t k

/-- One tiberius row: the column names reported by the protocol and the cell
data, in protocol order. -/
structure Row where
  columns : List String
  data : List ColumnData
deriving DecidableEq

/-- The row-to-Record loop body of query_sql (lines 115-119): zip the column
names with the cells and insert each decoded cell into a serde_json map. -/
def rowRecordPairs (r : Row) : List (String × Value) :=
  (r.columns.zip r.data).foldl (fun m p => mapInsert m p.1 (column_to_json p.2)) []

/-- A decoded Record, as query_sql pushes it: `Value::Object(map)`. -/
def rowToRecord (r : Row) : Value :=
  .obj (rowRecordPairs r)

/-- The decoded value of the rightmost cell paired with a given column name. -/
def lastCell (l : List (String × ColumnData)) (k : String) : Option ColumnData :=
  ((l.filter (fun p => p.1 = k)).getLast?).map (fun p => p.2)

/-- tiberius `ExecuteResult`, seen as the protocol's reply to an execute
round-trip: the affected-row counts plus whatever row data came back on the
wire (which tiberius drains and this layer never sees). -/
structure ExecuteResult where
  rows_affected : List Nat
  returnedRows : List Row

/-- tiberius `ResultMetadata` (the non-row stream items). -/
structure MetaData where
  columns : List String
deriving DecidableEq

/-- tiberius `QueryItem`: a stream element of a query result. -/
inductive QueryItem where
  | row : Row → QueryItem
  | metadata : MetaData → QueryItem
deriving DecidableEq

/-- A stream element that arrived intact. -/
def isOkItem : Except String QueryItem → Bool
  | .ok _ => true
  | .error _ => false

/-- A stream element that is an intact non-row (metadata) item. -/
def isOkMeta : Except String QueryItem → Bool
  | .ok (QueryItem.metadata _) => true
  | _ => false

/-- The `while let Some(item) = stream.try_next().await?` loop of query_sql
(lines 109-124): rows are decoded and appended in order, metadata items are
skipped, and a stream error aborts the whole call. -/
def collectRows : List (Except String QueryItem) → List Value → Except String (List Value)
  | [], acc => .ok acc
  | .error e :: _, _ => .error e
  | .ok (QueryItem.row r) :: rest, acc => collectRows rest (acc ++ [rowToRecord r])
  | .ok (QueryItem.metadata _) :: rest, acc => collectRows rest acc

/--
src-tauri/src/db.rs, execute_sql (lines 61-84).  The connection attempt and
the protocol round-trip are the call's two external effects; they enter the
model as the `connectR` outcome and the `clientExec` function, which receives
exactly what the code sends: the rewritten text and the encoded parameters.
-/
def execute_sql (connectR : Except String Unit)
    (clientExec : List Char → List SqlParam → Except String ExecuteResult)
    (sql : List Char) (params : List Value) : Except String Nat :=
  match connectR with
  | .error e => .error e
  | .ok _ =>
    match clientExec (rewrite sql params.length) (params.map json_to_sql_param) with
    | .error e => .error e
    | .ok res => .ok ((res.rows_affected.head?).getD 0)

/-- src-tauri/src/db.rs, query_sql (lines 87-128), with the result stream
delivered as a list of read outcomes. -/
def query_sql (connectR : Except String Unit)
    (clientQuery : List Char → List SqlParam → Except String (List (Except String QueryItem)))
    (sql : List Char) (params : List Value) : Except String Value :=
  match connectR with
  | .error e => .error e
  | .ok _ =>
    match clientQuery (rewrite sql params.length) (params.map json_to_sql_param) with
    | .error e => .error e
    | .ok stream =>
      match collectRows stream [] with
      | .error e => .error e
      | .ok rows => .ok (.arr rows)

theorem mapInsert_cons_lt (a k : String) (b v : Value) (t : List (String × Value))
    (h : k < a) : mapInsert ((a, b) :: t) k v = (k, v) :: (a, b) :: t := by
  simp only [mapInsert]
  rw [if_pos h]

theorem mapInsert_cons_eq (a k : String) (b v : Value) (t : List (String × Value))
    (h : k = a) : mapInsert ((a, b) :: t) k v = (k, v) :: t := by
  simp only [mapInsert]
  rw [if_neg (by rw [h]; exact lt_irrefl a), if_pos h]

theorem mapInsert_cons_gt (a k : String) (b v : Value) (t : List (String × Value))
    (h : a < k) : mapInsert ((a, b) :: t) k v = (a, b) :: mapInsert t k v := by
  simp only [mapInsert]
  rw [if_neg (lt_asymm h), if_neg (ne_of_gt h)]

theorem mapLookup_cons (a q : String) (b : Value) (t : List (String × Value)) :
    mapLookup ((a, b) :: t) q = if q = a then some b else mapLookup t q := rfl

theorem mapLookup_insert (m : List (String × Value)) (k : String) (v : Value) (q : String) :
    mapLookup (mapInsert m k v) q = if q = k then some v else mapLookup m q := by
  induction m with
  | nil => simp [mapInsert, mapLookup]
  | cons p t ih =>
    obtain ⟨a, b⟩ := p
    rcases lt_trichotomy k a with h1 | h1 | h1
    · rw [mapInsert_cons_lt a k b v t h1, mapLookup_cons]
    · rw [mapInsert_cons_eq a k b v t h1, mapLookup_cons, mapLookup_cons]
      subst h1
      by_cases h3 : q = k
      · simp only [if_pos h3]
      · simp only [if_neg h3]
    · rw [mapInsert_cons_gt a k b v t h1, mapLookup_cons, mapLookup_cons]
      by_cases h3 : q = a
      · have hqk : ¬ q = k := by rw [h3]; exact Ne.symm (ne_of_gt h1)
        simp only [if_pos h3, if_neg hqk]
      · simp only [if_neg h3, ih]

theorem mem_mapInsert (m : List (String × Value)) (k : String) (v : Value)
    (x : String × Value) (hx : x ∈ mapInsert m k v) : x = (k, v) ∨ x ∈ m := by
  induction m with
  | nil => simpa [mapInsert] using hx
  | cons p t ih =>
    obtain ⟨a, b⟩ := p
    rcases lt_trichotomy k a with h1 | h1 | h1
    · rw [mapInsert_cons_lt a k b v t h1] at hx
      rcases List.mem_cons.mp hx with h | h
      · exact Or.inl h
      · exact Or.inr h
    · rw [mapInsert_cons_eq a k b v t h1] at hx
      rcases List.mem_cons.mp hx with h | h
      · exact Or.inl h
      · exact Or.inr (List.mem_cons_of_mem _ h)
    · rw [mapInsert_cons_gt a k b v t h1] at hx
      rcases List.mem_cons.mp hx with h | h
      · exact Or.inr (by simp [h])
      · rcases ih h with h' | h'
        · exact Or.inl h'
        · exact Or.inr (List.mem_cons_of_mem _ h')

theorem pairwise_mapInsert (m : List (String × Value)) (k : String) (v : Value)
    (h : m.Pairwise (fun x y => x.1 < y.1)) :
    (mapInsert m k v).Pairwise (fun x y => x.1 < y.1) := by
  induction m with
  | nil => simp [mapInsert]
  | cons p t ih =>
    obtain ⟨a, b⟩ := p
    rw [List.pairwise_cons] at h
    obtain ⟨hhead, htail⟩ := h
    rcases lt_trichotomy k a with h1 | h1 | h1
    · rw [mapInsert_cons_lt a k b v t h1, List.pairwise_cons]
      refine ⟨?_, by rw [List.pairwise_cons]; exact ⟨hhead, htail⟩⟩
      intro x hx
      rcases List.mem_cons.mp hx with h | h
      · simp [h, h1]
      · exact lt_trans h1 (hhead x h)
    · rw [mapInsert_cons_eq a k b v t h1, List.pairwise_cons]
      subst h1
      exact ⟨hhead, htail⟩
    · rw [mapInsert_cons_gt a k b v t h1, List.pairwise_cons]
      refine ⟨?_, ih htail⟩
      intro x hx
      rcases mem_mapInsert t k v x hx with h | h
      · simp [h, h1]
      · exact hhead x h

theorem pairwise_rowFold (l : List (String × ColumnData)) :
    ∀ m : List (String × Value), m.Pairwise (fun x y => x.1 < y.1) →
      (l.foldl (fun m p => mapInsert m p.1 (column_to_json p.2)) m).Pairwise
        (fun x y => x.1 < y.1) := by
  induction l with
  | nil => intro m h; exact h
  | cons p t ih =>
    intro m h
    exact ih (mapInsert m p.1 (column_to_json p.2)) (pairwise_mapInsert m p.1 _ h)

theorem getLast?_cons_eq {α : Type} (x : α) (l : List α) :
    (x :: l).getLast? = match l.getLast? with | some y => some y | none => some x := by
  cases l with
  | nil => rfl
  | cons y t =>
    rw [List.getLast?_cons_cons]
    cases hl : (y :: t).getLast? with
    | none => exact absurd hl (by simp)
    | some z => rfl

theorem lastCell_cons (a : String) (d : ColumnData) (t : List (String × ColumnData))
    (q : String) :
    lastCell ((a, d) :: t) q =
      match lastCell t q with
      | some d' => some d'
      | none => if a = q then some d else none := by
  unfold lastCell
  by_cases h : a = q
  · rw [List.filter_cons_of_pos (by simp [h])]
    rw [getLast?_cons_eq]
    cases hl : (List.filter (fun p => decide (p.1 = q)) t).getLast? with
    | none => simp [hl, h]
    | some y => simp [hl]
  · rw [List.filter_cons_of_neg (by simp [h])]
    cases hl : (List.filter (fun p => decide (p.1 = q)) t).getLast? with
    | none => simp [hl, h]
    | some y => simp [hl]

theorem mapLookup_rowFold (l : List (String × ColumnData)) :
    ∀ (m : List (String × Value)) (q : String),
      mapLookup (l.foldl (fun m p => mapInsert m p.1 (column_to_json p.2)) m) q =
        match lastCell l q with
        | some d => some (column_to_json d)
        | none => mapLookup m q := by
  induction l with
  | nil =>
    intro m q
    simp [lastCell]
  | cons p t ih =>
    intro m q
    obtain ⟨a, d⟩ := p
    simp only [List.foldl_cons]
    rw [ih (mapInsert m a (column_to_json d)) q]
    rw [lastCell_cons]
    cases hl : lastCell t q with
    | some d' => simp
    | none =>
      simp only []
      rw [mapLookup_insert]
      by_cases h : q = a
      · simp [h]
      · have : ¬ a = q := fun h' => h h'.symm
        simp [h, this]

theorem collectRows_error (pre : List (Except String QueryItem)) :
    ∀ (acc : List Value) (e : String) (post : List (Except String QueryItem)),
      pre.all isOkItem = true →
      collectRows (pre ++ .error e :: post) acc = .error e := by
  induction pre with
  | nil => intro acc e post _; rfl
  | cons i pre' ih =>
    intro acc e post h
    rw [List.all_cons, Bool.and_eq_true] at h
    cases i with
    | error e' => simp [isOkItem] at h
    | ok item =>
      cases item with
      | row r => simpa [collectRows] using ih (acc ++ [rowToRecord r]) e post h.2
      | metadata m => simpa [collectRows] using ih acc e post h.2

theorem collectRows_meta (stream : List (Except String QueryItem)) :
    ∀ acc : List Value, stream.all isOkMeta = true → collectRows stream acc = .ok acc := by
  induction stream with
  | nil => intro acc _; rfl
  | cons i rest ih =>
    intro acc h
    rw [List.all_cons, Bool.and_eq_true] at h
    cases i with
    | error e => simp [isOkMeta] at h
    | ok item =>
      cases item with
      | row r => simp [isOkMeta] at h
      | metadata m => simpa [collectRows] using ih acc h.2

/-- Claim C1: when the rewriting loop runs once per placeholder (paramCount =
countQ s), the output contains zero placeholder characters and equals the
original segments interleaved with the positional tokens @p1, @p2, ...,
numbered consecutively from 1 in original left-to-right order; splitOnQ
yields exactly countQ s + 1 segments, so exactly countQ s tokens appear. -/
theorem C1_rewrite_all_placeholders (s : List Char) :
    countQ (rewrite s (countQ s)) = 0
    ∧ rewrite s (countQ s) = specJoin 1 (splitOnQ s)
    ∧ (splitOnQ s).length = countQ s + 1 := by
  refine ⟨?_, ?_, splitOnQ_length s⟩
  · rw [countQ_rewrite]
    omega
  · rw [rewrite_eq_joinUpTo]
    exact joinUpTo_full (splitOnQ s) 1 (countQ s) (splitOnQ_length s)

/-- Claim C2 counterexample: serde_json's Map cannot hold duplicate keys and
(by default) orders keys alphabetically, so a row with columns ["a", "a"]
produces a one-entry Record (the claim requires one entry per column), and a
row with columns ["b", "a"] produces the key order ["a", "b"], not the
protocol order ["b", "a"]. -/
theorem C2_counterexample :
    rowToRecord ⟨["a", "a"], [ColumnData.i32 (some 1), ColumnData.i32 (some 2)]⟩
      = Value.obj [("a", Value.num (JsonNumber.posInt 2))]
    ∧ (rowRecordPairs ⟨["a", "a"], [ColumnData.i32 (some 1), ColumnData.i32 (some 2)]⟩).length = 1
    ∧ rowToRecord ⟨["b", "a"], [ColumnData.i32 (some 1), ColumnData.i32 (some 2)]⟩
      = Value.obj [("a", Value.num (JsonNumber.posInt 2)), ("b", Value.num (JsonNumber.posInt 1))]
    ∧ (rowRecordPairs ⟨["b", "a"], [ColumnData.i32 (some 1), ColumnData.i32 (some 2)]⟩).map
        (fun p => p.1) = ["a", "b"] := by
  have hab : ("a" : String) < "b" := by
    rw [String.lt_iff_toList_lt]
    decide
  have e1 : rowRecordPairs ⟨["a", "a"], [ColumnData.i32 (some 1), ColumnData.i32 (some 2)]⟩
      = [("a", Value.num (JsonNumber.posInt 2))] := by
    have h0 : rowRecordPairs ⟨["a", "a"], [ColumnData.i32 (some 1), ColumnData.i32 (some 2)]⟩
        = mapInsert (mapInsert [] "a" (column_to_json (ColumnData.i32 (some 1)))) "a"
            (column_to_json (ColumnData.i32 (some 2))) := rfl
    rw [h0,
      show mapInsert [] "a" (column_to_json (ColumnData.i32 (some 1)))
        = [("a", column_to_json (ColumnData.i32 (some 1)))] from rfl,
      mapInsert_cons_eq "a" "a" (column_to_json (ColumnData.i32 (some 1)))
        (column_to_json (ColumnData.i32 (some 2))) [] rfl]
    rfl
  have e2 : rowRecordPairs ⟨["b", "a"], [ColumnData.i32 (some 1), ColumnData.i32 (some 2)]⟩
      = [("a", Value.num (JsonNumber.posInt 2)), ("b", Value.num (JsonNumber.posInt 1))] := by
    have h0 : rowRecordPairs ⟨["b", "a"], [ColumnData.i32 (some 1), ColumnData.i32 (some 2)]⟩
        = mapInsert (mapInsert [] "b" (column_to_json (ColumnData.i32 (some 1)))) "a"
            (column_to_json (ColumnData.i32 (some 2))) := rfl
    rw [h0,
      show mapInsert [] "b" (column_to_json (ColumnData.i32 (some 1)))
        = [("b", column_to_json (ColumnData.i32 (some 1)))] from rfl,
      mapInsert_cons_lt "b" "a" (column_to_json (ColumnData.i32 (some 1)))
        (column_to_json (ColumnData.i32 (some 2))) [] hab]
    rfl
  refine ⟨?_, ?_, ?_, ?_⟩
  · unfold rowToRecord
    rw [e1]
  · rw [e1]
    rfl
  · unfold rowToRecord
    rw [e2]
  · rw [e2]
    rfl

/-- Claim C2 (amended): the Record is built by zipping, in order, the row's
column names with the decoded cells and inserting each pair into a
serde_json map; looking up any name yields the decoded value of the
rightmost column bearing that name (duplicates collapse to one entry), and
the Record's keys are strictly sorted by name — the map's order, not
necessarily the protocol's column order. -/
theorem C2_record_from_row (r : Row) (q : String) :
    mapLookup (rowRecordPairs r) q
      = Option.map column_to_json (lastCell (r.columns.zip r.data) q)
    ∧ (rowRecordPairs r).Pairwise (fun x y => x.1 < y.1) := by
  constructor
  · unfold rowRecordPairs
    rw [mapLookup_rowFold]
    cases lastCell (r.columns.zip r.data) q <;> simp [mapLookup]
  · exact pairwise_rowFold (r.columns.zip r.data) [] List.Pairwise.nil

/-- Claim C3 counterexample: a call with statement text "x" (no placeholder)
and one parameter produces one bound parameter, but the rewritten text is
"x" unchanged and contains no positional token at all (not even the
character the tokens start with), so the bound-parameter count does not
equal the token count. -/
theorem C3_counterexample :
    rewrite ['x'] 1 = ['x']
    ∧ ¬ ('@' ∈ rewrite ['x'] 1)
    ∧ ([Value.null].map json_to_sql_param).length = 1 :=
  ⟨rfl, by decide, rfl⟩

/-- Claim C3 (amended): the number of bound parameters always equals
params.len(); when the statement contains exactly params.len() placeholder
characters, the rewritten text carries exactly params.len() positional
tokens, consumed strictly left-to-right, one per input value, in order (and
no placeholder remains). When the statement contains fewer placeholders than
parameters, fewer tokens than bound parameters are produced (see the
counterexample), as claim C4 describes. -/
theorem C3_bound_params_match (s : List Char) (params : List Value) :
    (params.map json_to_sql_param).length = params.length
    ∧ (countQ s = params.length →
        countQ (rewrite s params.length) = 0
        ∧ rewrite s params.length = specJoin 1 (splitOnQ s)) := by
  refine ⟨by simp, fun h => ⟨?_, ?_⟩⟩
  · rw [countQ_rewrite]
    omega
  · rw [rewrite_eq_joinUpTo, ← h]
    exact joinUpTo_full (splitOnQ s) 1 (countQ s) (splitOnQ_length s)

/-- Claim C3 witness: the amended theorem instantiated at text "?" with one
null parameter. -/
theorem C3_bound_params_match_witness :
    countQ (rewrite ['?'] 1) = 0 ∧ rewrite ['?'] 1 = specJoin 1 (splitOnQ ['?']) :=
  (C3_bound_params_match ['?'] [Value.null]).2 (by decide)

/-- Claim C4: the rewriting loop replaces exactly the first
min(countQ s, params.len()) placeholder occurrences — all of them when the
text has fewer placeholders than parameters, exactly the first params.len()
(leaving countQ s - params.len() trailing occurrences unreplaced) when it
has more; every input value is still encoded either way, and the call
proceeds to the protocol without a pre-validation error. -/
theorem C4_mismatch_behavior (s : List Char) (params : List Value) :
    rewrite s params.length = joinUpTo 1 params.length (splitOnQ s)
    ∧ countQ (rewrite s params.length) = countQ s - params.length
    ∧ (params.map json_to_sql_param).length = params.length
    ∧ ∀ res : ExecuteResult,
        execute_sql (Except.ok ()) (fun _ _ => Except.ok res) s params
          = Except.ok ((res.rows_affected.head?).getD 0) :=
  ⟨rewrite_eq_joinUpTo s params.length, countQ_rewrite s params.length, by simp,
    fun _ => rfl⟩

/-- Claim C5 counterexample: the float-carried number 5.0 has no fractional
component and fits the signed 64-bit integer domain, yet json_to_sql_param
encodes it as a floating-point bound parameter, because `as_i64` rejects
every float-carried number regardless of its value. -/
theorem C5_counterexample :
    (numVal (JsonNumber.float 5)).den = 1
    ∧ (-(2 ^ 63) : Rat) ≤ numVal (JsonNumber.float 5)
    ∧ numVal (JsonNumber.float 5) < (2 ^ 63 : Rat)
    ∧ json_to_sql_param (Value.num (JsonNumber.float 5)) = SqlParam.f64 5
    ∧ isIntParam (json_to_sql_param (Value.num (JsonNumber.float 5))) = false := by
  refine ⟨rfl, by norm_num [numVal], by norm_num [numVal], rfl, rfl⟩

/-- Claim C5 (amended): a number carried in an integer representation that
fits the signed 64-bit domain encodes as that exact integer parameter; any
other number — an integer representation exceeding that domain, or any
float-carried value, even an integral one — encodes as a floating-point
parameter; and the code's fallback when a number offers neither an integer
nor a float reading is the zero-valued integer parameter, not an error. -/
theorem C5_number_encoding (n : Nat) (i : Int) (q : Rat) :
    json_to_sql_param (Value.num (JsonNumber.posInt n))
      = (if n ≤ 9223372036854775807 then SqlParam.i64 (n : Int) else SqlParam.f64 (n : Rat))
    ∧ json_to_sql_param (Value.num (JsonNumber.negInt i)) = SqlParam.i64 i
    ∧ json_to_sql_param (Value.num (JsonNumber.float q)) = SqlParam.f64 q
    ∧ number_to_param none none = SqlParam.i64 0 := by
  refine ⟨?_, rfl, rfl, rfl⟩
  by_cases h : n ≤ 9223372036854775807 <;>
    simp [json_to_sql_param, as_i64, as_f64, number_to_param, h]

/-- Claim C6 counterexample: the claim puts an unrepresentable number among
the shapes that encode to the typed-null parameter, but the code's branch
for a number with neither an integer nor a float reading (the if-let chain's
final else) yields the zero-valued integer parameter, not the typed null. -/
theorem C6_counterexample :
    number_to_param none none = SqlParam.i64 0 ∧ SqlParam.i64 0 ≠ SqlParam.nullStr :=
  ⟨rfl, by decide⟩

/-- Claim C6 (amended): null, array and object inputs encode to the
typed-null (absent string) parameter; a number representable as neither
integer nor float falls back to the zero-valued integer parameter; and the
encoder is total — every input value yields some bound parameter, never an
error. -/
theorem C6_unsupported_to_null (l : List Value) (m : List (String × Value)) :
    json_to_sql_param Value.null = SqlParam.nullStr
    ∧ json_to_sql_param (Value.arr l) = SqlParam.nullStr
    ∧ json_to_sql_param (Value.obj m) = SqlParam.nullStr
    ∧ number_to_param none none = SqlParam.i64 0
    ∧ ∀ v : Value, ∃ p : SqlParam, json_to_sql_param v = p :=
  ⟨rfl, rfl, rfl, rfl, fun v => ⟨json_to_sql_param v, rfl⟩⟩

/-- Claim C7: column_to_json decodes every supported non-null column kind as
specified — binary to lower-case hexadecimal (in particular bytes
[0xDE, 0xAD] to "dead"), boolean to boolean, every integer width to a
number, both float widths to a number, text to string, unique-identifier to
its canonical hyphenated string — and maps every null cell and every
unsupported column kind to the null value. -/
theorem C7_column_decoding :
    (∀ b : List Nat, column_to_json (ColumnData.binary (some b))
      = Value.str (String.mk (hexEncode b)))
    ∧ column_to_json (ColumnData.binary (some [0xDE, 0xAD])) = Value.str "dead"
    ∧ (∀ b : Bool, column_to_json (ColumnData.bit (some b)) = Value.bool b)
    ∧ (∀ n : Nat, column_to_json (ColumnData.u8 (some n)) = Value.num (JsonNumber.posInt n))
    ∧ (∀ i : Int, column_to_json (ColumnData.i16 (some i)) = Value.num (intToNumber i))
    ∧ (∀ i : Int, column_to_json (ColumnData.i32 (some i)) = Value.num (intToNumber i))
    ∧ (∀ i : Int, column_to_json (ColumnData.i64 (some i)) = Value.num (intToNumber i))
    ∧ (∀ q : Rat, column_to_json (ColumnData.f32 (some q)) = Value.num (JsonNumber.float q))
    ∧ (∀ q : Rat, column_to_json (ColumnData.f64 (some q)) = Value.num (JsonNumber.float q))
    ∧ (∀ s : String, column_to_json (ColumnData.string (some s)) = Value.str s)
    ∧ (∀ g : Guid, column_to_json (ColumnData.guid (some g)) = Value.str (guidString g))
    ∧ column_to_json (ColumnData.binary none) = Value.null
    ∧ column_to_json (ColumnData.bit none) = Value.null
    ∧ column_to_json (ColumnData.u8 none) = Value.null
    ∧ column_to_json (ColumnData.i16 none) = Value.null
    ∧ column_to_json (ColumnData.i32 none) = Value.null
    ∧ column_to_json (ColumnData.i64 none) = Value.null
    ∧ column_to_json (ColumnData.f32 none) = Value.null
    ∧ column_to_json (ColumnData.f64 none) = Value.null
    ∧ column_to_json (ColumnData.string none) = Value.null
    ∧ column_to_json (ColumnData.guid none) = Value.null
    ∧ (∀ v, column_to_json (ColumnData.numeric v) = Value.null)
    ∧ (∀ v, column_to_json (ColumnData.xml v) = Value.null)
    ∧ (∀ v, column_to_json (ColumnData.dateTime v) = Value.null)
    ∧ (∀ v, column_to_json (ColumnData.smallDateTime v) = Value.null)
    ∧ (∀ v, column_to_json (ColumnData.time v) = Value.null)
    ∧ (∀ v, column_to_json (ColumnData.date v) = Value.null)
    ∧ (∀ v, column_to_json (ColumnData.dateTime2 v) = Value.null)
    ∧ (∀ v, column_to_json (ColumnData.dateTimeOffset v) = Value.null) :=
  ⟨fun _ => rfl, rfl, fun _ => rfl, fun _ => rfl, fun _ => rfl, fun _ => rfl,
    fun _ => rfl, fun _ => rfl, fun _ => rfl, fun _ => rfl, fun _ => rfl,
    rfl, rfl, rfl, rfl, rfl, rfl, rfl, rfl, rfl, rfl,
    fun _ => rfl, fun _ => rfl, fun _ => rfl, fun _ => rfl, fun _ => rfl,
    fun _ => rfl, fun _ => rfl, fun _ => rfl⟩

/-- Claim C8: on a successful round-trip execute_sql returns the first
affected-row count the protocol reports, whatever row data also came back,
and returns 0 when the protocol reports no count at all. -/
theorem C8_execute_affected_count (sql : List Char) (params : List Value)
    (counts : List Nat) (rows : List Row) :
    execute_sql (Except.ok ()) (fun _ _ => Except.ok ⟨counts, rows⟩) sql params
      = Except.ok ((counts.head?).getD 0)
    ∧ execute_sql (Except.ok ()) (fun _ _ => Except.ok ⟨[], rows⟩) sql params
      = Except.ok 0 :=
  ⟨rfl, rfl⟩

/-- Claim C9: a connection failure, a protocol failure, or a stream-read
failure mid-iteration each aborts the call with that single error string
and no partial result — in particular a stream error after any prefix of
intact items makes query_sql return the error, not the rows already read. -/
theorem C9_failure_propagation :
    (∀ (e : String) (f : List Char → List SqlParam → Except String ExecuteResult)
        (sql : List Char) (params : List Value),
        execute_sql (Except.error e) f sql params = Except.error e)
    ∧ (∀ (e : String)
        (g : List Char → List SqlParam → Except String (List (Except String QueryItem)))
        (sql : List Char) (params : List Value),
        query_sql (Except.error e) g sql params = Except.error e)
    ∧ (∀ (e : String) (sql : List Char) (params : List Value),
        execute_sql (Except.ok ()) (fun _ _ => Except.error e) sql params = Except.error e)
    ∧ (∀ (e : String) (sql : List Char) (params : List Value),
        query_sql (Except.ok ()) (fun _ _ => Except.error e) sql params = Except.error e)
    ∧ (∀ (pre : List (Except String QueryItem)) (e : String)
        (post : List (Except String QueryItem)) (sql : List Char) (params : List Value),
        pre.all isOkItem = true →
        query_sql (Except.ok ()) (fun _ _ => Except.ok (pre ++ Except.error e :: post))
          sql params = Except.error e) := by
  refine ⟨fun _ _ _ _ => rfl, fun _ _ _ _ => rfl, fun _ _ _ => rfl, fun _ _ _ => rfl,
    fun pre e post sql params h => ?_⟩
  have hc := collectRows_error pre [] e post h
  simp [query_sql, hc]

/-- Claim C9 witness: a stream that delivers one intact row and then fails
makes query_sql return the error alone. -/
theorem C9_failure_propagation_witness :
    query_sql (Except.ok ())
      (fun _ _ => Except.ok
        ([Except.ok (QueryItem.row ⟨["a"], [ColumnData.i32 (some 1)]⟩)]
          ++ Except.error "boom" :: []))
      ['s'] [] = Except.error "boom" :=
  C9_failure_propagation.2.2.2.2
    [Except.ok (QueryItem.row ⟨["a"], [ColumnData.i32 (some 1)]⟩)]
    "boom" [] ['s'] [] (by decide)

/-- Claim C10: when the connection succeeds and the stream completes with
only intact non-row (metadata) items — or no items at all — query_sql
returns a successful empty array of Records. -/
theorem C10_empty_result (stream : List (Except String QueryItem))
    (sql : List Char) (params : List Value)
    (h : stream.all isOkMeta = true) :
    query_sql (Except.ok ()) (fun _ _ => Except.ok stream) sql params
      = Except.ok (Value.arr []) := by
  have hc := collectRows_meta stream [] h
  simp [query_sql, hc]

/-- Claim C10 witness: a stream holding a single metadata item yields the
empty row array. -/
theorem C10_empty_result_witness :
    query_sql (Except.ok ())
      (fun _ _ => Except.ok [Except.ok (QueryItem.metadata ⟨["id"]⟩)]) ['s'] []
      = Except.ok (Value.arr []) :=
  C10_empty_result [Except.ok (QueryItem.metadata ⟨["id"]⟩)] ['s'] [] (by decide)

end Db
